import Mathlib

/-!
# Terramate: run-environment loading and watch resolution

A shallow embedding of `run.LoadEnv` (file `run/env.go`) together with the
collaborators it calls, followed by the properties of the loader.

Conventions of the embedding

* A Go string is a Lean `String`.  Go compares strings byte by byte; on valid
  UTF-8 the byte order and the code-point order coincide, so `<` on strings is
  embedded as a code-point-wise comparison (`strLess`).
* A Go slice that may be `nil` is an `Option (List _)`, `none` being `nil`.
* A Go `error` that may be `nil` is an `Option Error`.
* The external collaborators (`hcl.ParseDir`, `stack.LoadGlobals`,
  `os.Environ`, `EvalCtx.Eval`) are the fields of a `World`.
-/

namespace Terramate

/-! ## Strings -/

/-- Go's `a < b` on strings, on the characters of the two strings: the first
position where they differ decides, and a proper prefix is smaller. -/
def ltChars : List Char → List Char → Bool
  | [], [] => false
  | [], _ :: _ => true
  | _ :: _, [] => false
  | a :: as, b :: bs =>
    if a.toNat < b.toNat then true
    else if b.toNat < a.toNat then false
    else ltChars as bs

/-- Go's `a < b` on strings. -/
def strLess (a b : String) : Bool := ltChars a.data b.data

/-- Go's `a <= b` on strings. -/
def strLe (a b : String) : Bool := !strLess b a

/-! ## Errors -/

/-- The error kinds declared in `run/env.go`. -/
inductive Kind where
  | ErrParsingCfg
  | ErrLoadingGlobals
  | ErrEval
  | ErrInvalidEnvVarType
  deriving DecidableEq, Repr

/-- The text of each kind, as declared in `run/env.go`. -/
def Kind.text : Kind → String
  | .ErrParsingCfg => "parsing terramate.config.run.env configuration"
  | .ErrLoadingGlobals => "loading globals to evaluate terramate.config.run.env configuration"
  | .ErrEval => "evaluating terramate.config.run.env attribute"
  | .ErrInvalidEnvVarType => "invalid environment variable type"

/-- Modelled from the spec: the source location of an attribute name
(`hcl.Range`), whose declaration is not part of the sources; it is only
carried into diagnostics. -/
structure Range where
  Filename : String
  StartLine : Nat
  StartColumn : Nat
  EndLine : Nat
  EndColumn : Nat
  deriving DecidableEq, Repr

/-- Modelled from the spec: the value built by `errors.E`, whose declaration is
not part of the sources: a kind, an optional file range, a description obtained
from the format string and its arguments, and the wrapped lower-level error. -/
structure Error where
  kind : Kind
  fileRange : Option Range
  description : String
  cause : Option String
  deriving DecidableEq, Repr

/-! ## Evaluated values -/

/-- Modelled from the spec: the type tag of an evaluated value (`cty.Type`),
whose declaration is not part of the sources. -/
inductive CtyType where
  | string
  | number
  | bool
  | list
  | map
  | dynamicPseudoType
  deriving DecidableEq, Repr

/-- Modelled from the spec: `Type.FriendlyName`, the name of a type in
diagnostics. -/
def CtyType.FriendlyName : CtyType → String
  | .string => "string"
  | .number => "number"
  | .bool => "bool"
  | .list => "list"
  | .map => "map"
  | .dynamicPseudoType => "dynamic"

/-- Modelled from the spec: an evaluated value (`cty.Value`), whose declaration
is not part of the sources: a tagged variant over strings, numbers, booleans,
lists, maps and null. -/
inductive Value where
  | str (s : String)
  | number (n : Int)
  | bool (b : Bool)
  | list (elems : List Value)
  | map (entries : List (String × Value))
  | null

/-- The type of a value (`Value.Type`). -/
def Value.Type : Value → CtyType
  | .str _ => .string
  | .number _ => .number
  | .bool _ => .bool
  | .list _ => .list
  | .map _ => .map
  | .null => .dynamicPseudoType

/-- The Go string of a string value (`Value.AsString`).  The library call does
not return on a value of another type; `LoadEnv` calls it only after the type
check, and the embedding gives the empty string elsewhere. -/
def Value.AsString : Value → String
  | .str s => s
  | _ => ""

/-! ## Configuration -/

/-- An expression of the configuration language, kept as its source text; it
is only passed to the evaluator. -/
abbrev Expr := String

/-- Modelled from the spec: one run-env attribute (`ast.Attribute`), whose
declaration is not part of the sources: the record of name, name range and
expression (`Value()`), tagged with its origin (`Origin()`). -/
structure Attribute where
  Name : String
  NameRange : Range
  Expr : Expr
  Origin : String
  deriving DecidableEq, Repr

/-- Modelled from the spec: the `Less` method of the attribute collection,
whose declaration is not part of the sources; the collection is sorted by
attribute name. -/
def Attribute.Less (a b : Attribute) : Bool := strLess a.Name b.Name

/-- The run-env section of the configuration. -/
structure RunEnv where
  Attributes : List Attribute
  deriving DecidableEq, Repr

/-- Modelled from the spec: the parsed configuration tree (`hcl.Config`), whose
declaration is not part of the sources, reduced to the part `LoadEnv` reads:
the run-env section `Terramate.Config.Run.Env`, which may be absent. -/
structure Config where
  Env : Option RunEnv
  deriving DecidableEq, Repr

/-- Whether the configuration has a run-env section (`Config.HasRunEnv`). -/
def Config.HasRunEnv (cfg : Config) : Bool := cfg.Env.isSome

/-- The attributes read by `cfg.Terramate.Config.Run.Env.Attributes`. -/
def Config.RunEnvAttributes (cfg : Config) : List Attribute :=
  match cfg.Env with
  | some env => env.Attributes
  | none => []

/-- Modelled from the spec: a stack (`stack.S`), identified by its
project-relative directory, with its optional watch declaration. -/
structure Stack where
  Dir : String
  Watch : Option Expr
  deriving DecidableEq, Repr

/-- The globals namespace of a stack, as loaded by the globals loader. -/
abbrev Globals := List (String × String)

/-- The evaluation context built by `stack.NewEvalCtx` and `SetEnv`. -/
structure EvalCtx where
  rootdir : String
  stack : Stack
  globals : Globals
  env : List String
  deriving DecidableEq, Repr

/-- The external collaborators of the loader. -/
structure World where
  ParseDir : String → Except String Config
  LoadGlobals : String → Stack → Except String Globals
  Environ : List String
  Eval : EvalCtx → Expr → Except String Value

/-- The function `stack.NewEvalCtx`. -/
def NewEvalCtx (rootdir : String) (st : Stack) (globals : Globals) : EvalCtx :=
  { rootdir := rootdir, stack := st, globals := globals, env := [] }

/-- The method `EvalCtx.SetEnv`. -/
def EvalCtx.SetEnv (ctx : EvalCtx) (environ : List String) : EvalCtx :=
  { ctx with env := environ }

/-! ## Stable sorting -/

/-- Insertion of `a` in front of a list sorted by `less`, where `a` preceded
all the elements of the list: `a` moves right past the elements smaller than
it, and stays in front of the elements it is not greater than. -/
def insertStable {α : Type} (less : α → α → Bool) (a : α) : List α → List α
  | [] => [a]
  | b :: l => if less b a then b :: insertStable less a l else a :: b :: l

/-- The Go library function `sort.Stable`, by its contract: the elements are
sorted by `less` and equal elements keep their original order.  Realised as an
insertion sort; `stable_sort_unique` below shows the contract leaves no
freedom. -/
def sortStable {α : Type} (less : α → α → Bool) : List α → List α
  | [] => []
  | a :: l => insertStable less a (sortStable less l)

/-! ## The loader -/

/-- Environment variables in the format of `os.Environ`. -/
abbrev EnvVars := List String

/-- The error returned when the evaluation of an attribute fails. -/
def evalError (a : Attribute) (err : String) : Error :=
  { kind := .ErrEval, fileRange := some a.NameRange,
    description := "attribute origin " ++ a.Origin, cause := some err }

/-- The error returned when an attribute evaluates to a non-string. -/
def typeError (a : Attribute) (val : Value) : Error :=
  { kind := .ErrInvalidEnvVarType, fileRange := some a.NameRange,
    description := "attr has type " ++ val.Type.FriendlyName ++
      " but must be string, attribute origin " ++ a.Origin,
    cause := none }

/-- The error returned when the configuration cannot be parsed. -/
def parseError (err : String) : Error :=
  { kind := .ErrParsingCfg, fileRange := none, description := "", cause := some err }

/-- The error returned when the globals cannot be loaded. -/
def globalsError (err : String) : Error :=
  { kind := .ErrLoadingGlobals, fileRange := none, description := "", cause := some err }

/-- The loop of `LoadEnv` over the sorted attributes, `envVars` being the
entries appended so far. -/
def loadEnvLoop (eval : Expr → Except String Value) :
    List Attribute → EnvVars → Option EnvVars × Option Error
  | [], envVars => (some envVars, none)
  | attr :: rest, envVars =>
    match eval attr.Expr with
    | .error err => (none, some (evalError attr err))
    | .ok val =>
      if val.Type ≠ CtyType.string then (none, some (typeError attr val))
      else loadEnvLoop eval rest (envVars ++ [attr.Name ++ "=" ++ val.AsString])

/-- The function `run.LoadEnv`. -/
def LoadEnv (w : World) (rootdir : String) (st : Stack) : Option EnvVars × Option Error :=
  match w.ParseDir rootdir with
  | .error err => (none, some (parseError err))
  | .ok cfg =>
    if !cfg.HasRunEnv then (none, none)
    else
      match w.LoadGlobals rootdir st with
      | .error err => (none, some (globalsError err))
      | .ok globals =>
        let evalctx := (NewEvalCtx rootdir st globals).SetEnv w.Environ
        let attrs := sortStable Attribute.Less cfg.RunEnvAttributes
        loadEnvLoop (w.Eval evalctx) attrs []

/-! ## Sample inputs -/

/-- A range used by the sample attributes. -/
def sampleRange : Range :=
  { Filename := "/terramate.tm.hcl", StartLine := 1, StartColumn := 1, EndLine := 1, EndColumn := 2 }

/-- A sample attribute with the given name and expression. -/
def sampleAttr (name : String) (expr : Expr) : Attribute :=
  { Name := name, NameRange := sampleRange, Expr := expr, Origin := "/terramate.tm.hcl" }

/-- A sample evaluator: string literals, two non-strings and a failing
reference. -/
def sampleEval (_ : EvalCtx) (e : Expr) : Except String Value :=
  if e = "\"1\"" then .ok (.str "1")
  else if e = "\"2\"" then .ok (.str "2")
  else if e = "1" then .ok (.number 1)
  else if e = "[]" then .ok (.list [])
  else if e = "null" then .ok .null
  else .error "unknown variable"

/-- A sample world whose configuration has the given run-env attributes. -/
def sampleWorld (attrs : List Attribute) : World :=
  { ParseDir := fun _ => .ok { Env := some { Attributes := attrs } },
    LoadGlobals := fun _ _ => .ok [],
    Environ := ["HOME=/root"],
    Eval := sampleEval }

/-- A sample stack. -/
def sampleStack : Stack := { Dir := "/stack", Watch := none }

/-! ## Statement vocabulary -/

/-- Whether the evaluation of an attribute succeeds with a string. -/
def evalsToString (eval : Expr → Except String Value) (a : Attribute) : Bool :=
  match eval a.Expr with
  | .ok val => val.Type == CtyType.string
  | .error _ => false

/-- The evaluated string of an attribute (empty when the evaluation fails). -/
def envValue (eval : Expr → Except String Value) (a : Attribute) : String :=
  match eval a.Expr with
  | .ok val => val.AsString
  | .error _ => ""

/-- The entry of an attribute: its name, `=`, and its evaluated string. -/
def envEntry (eval : Expr → Except String Value) (a : Attribute) : String :=
  a.Name ++ "=" ++ envValue eval a

/-- The error `LoadEnv` reports for an attribute, if the attribute is faulty. -/
def attrError (eval : Expr → Except String Value) (a : Attribute) : Option Error :=
  match eval a.Expr with
  | .error err => some (evalError a err)
  | .ok val => if val.Type ≠ CtyType.string then some (typeError a val) else none

/-- The evaluator `LoadEnv` uses for a stack, once the globals are loaded. -/
def World.evalFor (w : World) (rootdir : String) (st : Stack) (globals : Globals) :
    Expr → Except String Value :=
  w.Eval ((NewEvalCtx rootdir st globals).SetEnv w.Environ)

/-- The key of an entry in the format of `os.Environ`: the text before the
first `=`. -/
def envKey (entry : String) : String :=
  String.mk (entry.data.takeWhile (fun c => c != '='))

/-- The attributes in the order `LoadEnv` visits them. -/
def sortedAttrs (attrs : List Attribute) : List Attribute :=
  sortStable Attribute.Less attrs

/-- The attributes paired with their insertion index, counted from `i`. -/
def withIndex : Nat → List Attribute → List (Nat × Attribute)
  | _, [] => []
  | i, a :: l => (i, a) :: withIndex (i + 1) l

/-- The order by name with ties resolved by insertion index: `x` comes strictly
before `y`. -/
def lessByNameThenIndex (x y : Nat × Attribute) : Bool :=
  strLess x.2.Name y.2.Name || (x.2.Name == y.2.Name && decide (x.1 < y.1))

/-- No attribute name is another attribute name followed by a character that
is not above `=`. -/
def PrefixSafe (attrs : List Attribute) : Prop :=
  ∀ a ∈ attrs, ∀ b ∈ attrs, ∀ (c : Char) (r : List Char),
    b.Name.data = a.Name.data ++ c :: r → '='.toNat < c.toNat

/-! ## Watch resolution and change detection

The resolver and the change detector are not part of the sources; they are
modelled from sections 4.2, 4.4 and 6 of the specification. -/

/-- Modelled from the spec: the error kind `config.ErrStackInvalidWatch`, whose
declaration is not part of the sources, by its text. -/
def ErrStackInvalidWatch : String := "stack invalid watch"

/-- Modelled from the spec: the failures of the watch-list resolver, which is
not part of the sources: the evaluation fails or does not give a list of
strings (4.2 step 2), a path leaves the project root (step 4), a path names a
directory (step 5). -/
inductive WatchFailure where
  | evalFailed (err : String)
  | notListOfStrings
  | outsideRoot (declared : String)
  | isDirectory (declared : String)
  deriving DecidableEq, Repr

/-- The pieces of a path between its `/` separators. -/
def splitSlash : List Char → List (List Char)
  | [] => [[]]
  | c :: cs =>
    if c = '/' then [] :: splitSlash cs
    else
      match splitSlash cs with
      | [] => [[c]]
      | seg :: segs => (c :: seg) :: segs

/-- The segments of a path. -/
def pathSegments (path : String) : List String := (splitSlash path.data).map String.mk

/-- Modelled from the spec: the lexical normalisation of a path given by its
segments (4.2 step 4), which is not part of the sources: empty and `.` segments
are dropped and `..` removes the segment before it; `kept` holds the segments
kept so far, last first. -/
def normalize : List String → List String → List String
  | [], kept => kept.reverse
  | seg :: rest, kept =>
    if seg = "" ∨ seg = "." then normalize rest kept
    else if seg = ".." then normalize rest kept.tail
    else normalize rest (seg :: kept)

/-- A resolved watch path: the segments of a path relative to the project
root. -/
abbrev WatchPath := List String

/-- Modelled from the spec: the project as the resolver and the change
detector see it: the segments of the absolute path of the project root, the
stacks, the directories of the file system (by project-relative path), and the
value evaluator with the namespace of a stack. -/
structure Project where
  Root : List String
  Stacks : List Stack
  IsDir : WatchPath → Bool
  Eval : Stack → Expr → Except String Value

/-- Modelled from the spec: the absolute path a declared watch string stands
for (4.2 steps 3 and 4), which is not part of the sources: a string that begins
with `/` is relative to the project root, any other one is relative to the
directory of the stack; the result is normalised. -/
def resolvedPath (root : List String) (st : Stack) (declared : String) : List String :=
  if declared.data.head? = some '/' then normalize (root ++ pathSegments declared) []
  else normalize (root ++ pathSegments st.Dir ++ pathSegments declared) []

/-- Modelled from the spec: the resolution of one declared watch string (4.2
steps 3 to 6), which is not part of the sources: the normalised path must
remain inside the project root and must not name a directory; it need not
exist. -/
def resolveWatch (proj : Project) (st : Stack) (declared : String) :
    Except WatchFailure WatchPath :=
  if proj.Root.isPrefixOf (resolvedPath proj.Root st declared) then
    if proj.IsDir ((resolvedPath proj.Root st declared).drop proj.Root.length) then
      .error (.isDirectory declared)
    else .ok ((resolvedPath proj.Root st declared).drop proj.Root.length)
  else .error (.outsideRoot declared)

/-- The strings of a list of values, if all the values are strings. -/
def watchStrings : List Value → Option (List String)
  | [] => some []
  | .str s :: rest =>
    match watchStrings rest with
    | some strs => some (s :: strs)
    | none => none
  | _ :: _ => none

/-- The resolution of the declared strings, one after the other. -/
def resolveAll (proj : Project) (st : Stack) : List String → Except WatchFailure (List WatchPath)
  | [] => .ok []
  | declared :: rest =>
    match resolveWatch proj st declared with
    | .error f => .error f
    | .ok path =>
      match resolveAll proj st rest with
      | .error f => .error f
      | .ok paths => .ok (path :: paths)

/-- Modelled from the spec: the watch-list resolver `ResolveWatches` (4.2),
which is not part of the sources. -/
def ResolveWatches (proj : Project) (st : Stack) : Except WatchFailure (List WatchPath) :=
  match st.Watch with
  | none => .ok []
  | some expr =>
    match proj.Eval st expr with
    | .error err => .error (.evalFailed err)
    | .ok (.list elems) =>
      match watchStrings elems with
      | none => .error .notListOfStrings
      | some strs => resolveAll proj st strs
    | .ok _ => .error .notListOfStrings

/-- The segments of a project-relative path, normalised. -/
def relSegments (path : String) : List String := normalize (pathSegments path) []

/-- Whether a changed file lies inside the directory subtree of the stack (4.4
step 2a). -/
def ownChanged (st : Stack) (changed : List String) : Bool :=
  changed.any (fun file => (relSegments st.Dir).isPrefixOf (relSegments file))

/-- Modelled from the spec: the decision for one stack (4.4 step 2), which is
not part of the sources.  The watch list of every stack is resolved, and a
failure is surfaced as `ErrStackInvalidWatch` whatever files changed (sections 7
and 8: one invalid watch declaration fails the whole batch, the stack is never
silently omitted); a stack is changed if a changed file lies in its own subtree
(step 2a) or, otherwise, if a resolved watch path is a changed file (step
2c). -/
def stackChanged (proj : Project) (changed : List String) (st : Stack) : Except String Bool :=
  match ResolveWatches proj st with
  | .error _ => .error ErrStackInvalidWatch
  | .ok watches =>
    if ownChanged st changed then .ok true
    else .ok (watches.any (fun path => changed.any (fun file => relSegments file == path)))

/-- The changed stacks among the given ones; the first failure aborts. -/
def changedStacks (proj : Project) (changed : List String) :
    List Stack → Except String (List Stack)
  | [] => .ok []
  | st :: rest =>
    match stackChanged proj changed st with
    | .error kind => .error kind
    | .ok isChanged =>
      match changedStacks proj changed rest with
      | .error kind => .error kind
      | .ok found => .ok (if isChanged then st :: found else found)

/-- Modelled from the spec: the change detector `ListChangedStacks` (4.4),
which is not part of the sources; `changed` is the changed file set obtained
from the version control collaborator. -/
def ListChangedStacks (proj : Project) (changed : List String) : Except String (List Stack) :=
  match changedStacks proj changed proj.Stacks with
  | .error kind => .error kind
  | .ok found => .ok (sortStable (fun a b => strLess a.Dir b.Dir) found)

/-- The outcome of a command: exit status, standard output, standard error. -/
structure RunResult where
  Status : Nat
  Stdout : String
  Stderr : String
  deriving DecidableEq, Repr

/-- Modelled from the spec: the command that lists the changed stacks (section
6), which is not part of the sources: one stack path per line and status 0, or
status 1 and a diagnostic with the text of the error kind. -/
def listChangedStacksCmd (proj : Project) (changed : List String) : RunResult :=
  match ListChangedStacks proj changed with
  | .ok found =>
    { Status := 0, Stdout := String.join (found.map (fun st => st.Dir ++ "\n")), Stderr := "" }
  | .error kind => { Status := 1, Stdout := "", Stderr := "Error: " ++ kind ++ "\n" }

/-- The project of the end-to-end test `TestListWatchFileOutsideProject`: the
stack `/stack` watches a file two levels above its directory. -/
def outsideProject : Project :=
  { Root := ["tmp", "sandbox"],
    Stacks := [{ Dir := "/stack", Watch := some "watch" }],
    IsDir := fun path => path == ["stack"] || path == ["external"],
    Eval := fun _ expr =>
      if expr = "watch" then
        .ok (.list [.str "../../this-stack-must-never-be-visible/terramate.tm.hcl"])
      else .error "unknown variable" }

/-- The project of the end-to-end test `TestListWatchRelativeChangedFile`: the
stack `/stack` watches a file of a sibling directory. -/
def relativeProject : Project :=
  { Root := ["tmp", "sandbox"],
    Stacks := [{ Dir := "/stack", Watch := some "watch" }],
    IsDir := fun path => path == ["stack"] || path == ["external"],
    Eval := fun _ expr =>
      if expr = "watch" then .ok (.list [.str "../external/file.txt"])
      else .error "unknown variable" }

/-! ## Order lemmas -/

theorem ltChars_irrefl (a : List Char) : ltChars a a = false := by
  induction a with
  | nil => rfl
  | cons c cs ih => simp [ltChars, ih]

theorem ltChars_asymm : ∀ (a b : List Char), ltChars a b = true → ltChars b a = false
  | [], [], _ => rfl
  | [], _ :: _, _ => rfl
  | _ :: _, [], h => by simp [ltChars] at h
  | a :: as, b :: bs, h => by
    simp only [ltChars] at h ⊢
    by_cases h1 : a.toNat < b.toNat
    · have h2 : ¬ b.toNat < a.toNat := by omega
      simp [h1, h2]
    · by_cases h2 : b.toNat < a.toNat
      · simp [h1, h2] at h
      · simp only [h1, h2, if_false] at h ⊢
        exact ltChars_asymm as bs h

theorem ltChars_eq_of_not_lt : ∀ (a b : List Char),
    ltChars a b = false → ltChars b a = false → a = b
  | [], [], _, _ => rfl
  | [], _ :: _, h, _ => by simp [ltChars] at h
  | _ :: _, [], _, h => by simp [ltChars] at h
  | a :: as, b :: bs, h, h' => by
    simp only [ltChars] at h h'
    by_cases h1 : a.toNat < b.toNat
    · simp [h1] at h
    · by_cases h2 : b.toNat < a.toNat
      · simp [h2] at h'
      · simp only [h1, h2, if_false] at h h'
        have hc : a = b := by
          apply Char.ext
          apply UInt32.ext
          have : a.toNat = b.toNat := by omega
          simpa [Char.toNat, UInt32.toNat] using this
        rw [hc, ltChars_eq_of_not_lt as bs h h']

theorem ltChars_trans : ∀ (a b c : List Char),
    ltChars a b = true → ltChars b c = true → ltChars a c = true
  | [], _, [], _, h => by cases ‹List Char› <;> simp [ltChars] at h
  | [], _, _ :: _, _, _ => rfl
  | _ :: _, [], _, h, _ => by simp [ltChars] at h
  | _ :: _, _ :: _, [], _, h => by simp [ltChars] at h
  | a :: as, b :: bs, c :: cs, h, h' => by
    simp only [ltChars] at h h' ⊢
    by_cases h1 : a.toNat < b.toNat
    · by_cases h3 : b.toNat < c.toNat
      · have : a.toNat < c.toNat := by omega
        simp [this]
      · by_cases h4 : c.toNat < b.toNat
        · simp [h3, h4] at h'
        · have : a.toNat < c.toNat := by omega
          simp [this]
    · by_cases h2 : b.toNat < a.toNat
      · simp [h1, h2] at h
      · simp only [h1, h2, if_false] at h
        by_cases h3 : b.toNat < c.toNat
        · have : a.toNat < c.toNat := by omega
          simp [this]
        · by_cases h4 : c.toNat < b.toNat
          · simp [h3, h4] at h'
          · simp only [h3, h4, if_false] at h'
            have h5 : ¬ a.toNat < c.toNat := by omega
            have h6 : ¬ c.toNat < a.toNat := by omega
            simp only [h5, h6, if_false]
            exact ltChars_trans as bs cs h h'

theorem strLess_irrefl (a : String) : strLess a a = false := ltChars_irrefl _

theorem strLess_asymm {a b : String} (h : strLess a b = true) : strLess b a = false :=
  ltChars_asymm _ _ h

theorem strLess_trans {a b c : String} (h : strLess a b = true) (h' : strLess b c = true) :
    strLess a c = true :=
  ltChars_trans _ _ _ h h'

theorem strLess_eq_of_not_lt {a b : String} (h : strLess a b = false)
    (h' : strLess b a = false) : a = b := by
  have := ltChars_eq_of_not_lt _ _ h h'
  cases a; cases b; simp_all

/-- Transitivity of `<=` on strings. -/
theorem strLe_trans {a b c : String} (h : strLess b a = false) (h' : strLess c b = false) :
    strLess c a = false := by
  by_contra hca
  have hca : strLess c a = true := by simpa using hca
  by_cases hba : strLess b c = true
  · have := strLess_trans hba hca
    simp [h] at this
  · have hbc : b = c := strLess_eq_of_not_lt (by simpa using hba) h'
    subst hbc
    simp [h] at hca

/-! ## Stable sorting lemmas -/

theorem insertStable_perm {α : Type} (less : α → α → Bool) (a : α) (l : List α) :
    (insertStable less a l).Perm (a :: l) := by
  induction l with
  | nil => exact List.Perm.refl _
  | cons b l ih =>
    simp only [insertStable]
    split
    · exact ((List.Perm.cons b ih).trans (List.Perm.swap a b l))
    · exact List.Perm.refl _

theorem sortStable_perm {α : Type} (less : α → α → Bool) (l : List α) :
    (sortStable less l).Perm l := by
  induction l with
  | nil => exact List.Perm.refl _
  | cons a l ih =>
    exact (insertStable_perm less a _).trans (List.Perm.cons a ih)

theorem insertStable_sorted {α : Type} (less : α → α → Bool)
    (hasymm : ∀ a b, less a b = true → less b a = false)
    (htrans : ∀ a b c, less b a = false → less c b = false → less c a = false)
    (a : α) (l : List α) (hl : l.Pairwise (fun x y => less y x = false)) :
    (insertStable less a l).Pairwise (fun x y => less y x = false) := by
  induction l with
  | nil => simp [insertStable]
  | cons b l ih =>
    rw [List.pairwise_cons] at hl
    simp only [insertStable]
    by_cases hba : less b a = true
    · simp only [hba, if_true]
      rw [List.pairwise_cons]
      refine ⟨?_, ih hl.2⟩
      intro y hy
      have hy' : y ∈ a :: l := (insertStable_perm less a l).subset hy
      rcases List.mem_cons.mp hy' with rfl | hy''
      · exact hasymm _ _ hba
      · exact hl.1 y hy''
    · have hba' : less b a = false := by simpa using hba
      simp only [hba', Bool.false_eq_true, if_false]
      rw [List.pairwise_cons]
      refine ⟨?_, List.pairwise_cons.mpr hl⟩
      intro y hy
      rcases List.mem_cons.mp hy with rfl | hy'
      · exact hba'
      · exact htrans _ _ _ hba' (hl.1 y hy')

theorem sortStable_sorted {α : Type} (less : α → α → Bool)
    (hasymm : ∀ a b, less a b = true → less b a = false)
    (htrans : ∀ a b c, less b a = false → less c b = false → less c a = false)
    (l : List α) : (sortStable less l).Pairwise (fun x y => less y x = false) := by
  induction l with
  | nil => exact List.Pairwise.nil
  | cons a l ih => exact insertStable_sorted less hasymm htrans a _ ih

theorem insertStable_filter {α : Type} (less : α → α → Bool) (p : α → Bool) (a : α)
    (l : List α) (h : p a = true → ∀ b ∈ l, p b = true → less b a = false) :
    (insertStable less a l).filter p = (a :: l).filter p := by
  induction l with
  | nil => rfl
  | cons b l ih =>
    have ih' := ih (fun ha c hc hpc => h ha c (List.mem_cons_of_mem _ hc) hpc)
    simp only [insertStable]
    by_cases hba : less b a = true
    · simp only [hba, if_true]
      by_cases hpa : p a = true
      · have hpb : p b = false := by
          by_contra hpb
          have := h hpa b (List.mem_cons_self _ _) (by simpa using hpb)
          simp [hba] at this
        simp only [List.filter_cons, hpb, hpa, if_true, Bool.false_eq_true, if_false] at ih' ⊢
        exact ih'
      · have hpa' : p a = false := by simpa using hpa
        simp only [List.filter_cons, hpa', Bool.false_eq_true, if_false] at ih' ⊢
        rw [ih']
    · have hba' : less b a = false := by simpa using hba
      simp only [hba', Bool.false_eq_true, if_false]

theorem sortStable_filter {α : Type} (less : α → α → Bool) (p : α → Bool)
    (h : ∀ a b, p a = true → p b = true → less b a = false) (l : List α) :
    (sortStable less l).filter p = l.filter p := by
  induction l with
  | nil => rfl
  | cons a l ih =>
    simp only [sortStable]
    rw [insertStable_filter less p a _ (fun ha b _ hb => h a b ha hb)]
    simp only [List.filter_cons, ih]

/-- The contract of a stable sort by name leaves no freedom: two lists sorted
by name that have, for every name, the same attributes of that name in the same
order, are equal. -/
theorem stable_sort_unique : ∀ (l₁ l₂ : List Attribute),
    l₁.Pairwise (fun x y => Attribute.Less y x = false) →
    l₂.Pairwise (fun x y => Attribute.Less y x = false) →
    (∀ n : String, l₁.filter (fun a => a.Name == n) = l₂.filter (fun a => a.Name == n)) →
    l₁ = l₂
  | [], [], _, _, _ => rfl
  | [], b :: l₂, _, _, h => by
    have := h b.Name
    simp at this
  | a :: l₁, [], _, _, h => by
    have := h a.Name
    simp at this
  | a :: l₁, b :: l₂, h₁, h₂, h => by
    rw [List.pairwise_cons] at h₁ h₂
    have hb : b ∈ a :: l₁ := by
      have hm : b ∈ (b :: l₂).filter (fun x => x.Name == b.Name) := by simp
      rw [← h b.Name] at hm
      exact (List.mem_filter.mp hm).1
    have ha : a ∈ b :: l₂ := by
      have hm : a ∈ (a :: l₁).filter (fun x => x.Name == a.Name) := by simp
      rw [h a.Name] at hm
      exact (List.mem_filter.mp hm).1
    have hab : Attribute.Less b a = false := by
      rcases List.mem_cons.mp hb with rfl | hb'
      · exact strLess_irrefl _
      · exact h₁.1 b hb'
    have hba : Attribute.Less a b = false := by
      rcases List.mem_cons.mp ha with rfl | ha'
      · exact strLess_irrefl _
      · exact h₂.1 a ha'
    have hn : a.Name = b.Name := strLess_eq_of_not_lt hba hab
    have hh := h a.Name
    simp only [List.filter_cons, beq_self_eq_true, if_true, hn] at hh
    have hab' : a = b := by injection hh
    have htl : ∀ n : String,
        l₁.filter (fun x => x.Name == n) = l₂.filter (fun x => x.Name == n) := by
      intro n
      have hn' := h n
      subst hab'
      simp only [List.filter_cons] at hn'
      by_cases hc : (a.Name == n) = true
      · simp only [hc, if_true] at hn'
        injection hn'
      · simp only [hc, if_false] at hn'
        exact hn'
    rw [hab', stable_sort_unique l₁ l₂ h₁.2 h₂.2 htl]

theorem sortedAttrs_perm (attrs : List Attribute) : (sortedAttrs attrs).Perm attrs :=
  sortStable_perm _ _

theorem sortedAttrs_sorted (attrs : List Attribute) :
    (sortedAttrs attrs).Pairwise (fun x y => strLess y.Name x.Name = false) :=
  sortStable_sorted Attribute.Less (fun _ _ h => strLess_asymm h)
    (fun _ _ _ h h' => strLe_trans h h') attrs

theorem sortedAttrs_filter (attrs : List Attribute) (n : String) :
    (sortedAttrs attrs).filter (fun a => a.Name == n) = attrs.filter (fun a => a.Name == n) := by
  apply sortStable_filter
  intro a b ha hb
  have ha' : a.Name = n := by simpa using ha
  have hb' : b.Name = n := by simpa using hb
  simp only [Attribute.Less, ha', hb']
  exact strLess_irrefl n

/-! ## Loop lemmas -/

/-- The loop returns the error of the first faulty attribute, or else the
accumulated entries followed by the entries of all attributes. -/
theorem loadEnvLoop_eq (eval : Expr → Except String Value) :
    ∀ (l : List Attribute) (acc : EnvVars),
      loadEnvLoop eval l acc =
        match l.find? (fun a => !evalsToString eval a) with
        | some a => (none, attrError eval a)
        | none => (some (acc ++ l.map (envEntry eval)), none)
  | [], acc => by simp [loadEnvLoop]
  | a :: l, acc => by
    rw [loadEnvLoop]
    cases hev : eval a.Expr with
    | error err => simp [List.find?, evalsToString, attrError, hev]
    | ok val =>
      by_cases hty : val.Type = CtyType.string
      · simp only [hty, ne_eq, not_true_eq_false, if_false]
        rw [loadEnvLoop_eq eval l]
        simp [List.find?, evalsToString, envEntry, envValue, hev, hty]
      · have hb : (val.Type == CtyType.string) = false := by simpa using hty
        simp [List.find?, evalsToString, attrError, hev, hty, hb]

theorem find_faulty_none {eval : Expr → Except String Value} {l : List Attribute}
    (h : ∀ a ∈ l, evalsToString eval a = true) :
    l.find? (fun a => !evalsToString eval a) = none := by
  rw [List.find?_eq_none]
  intro a ha
  simp [h a ha]

theorem find_faulty_split {eval : Expr → Except String Value} {pre post : List Attribute}
    {a : Attribute} (hpre : ∀ b ∈ pre, evalsToString eval b = true)
    (ha : evalsToString eval a = false) :
    (pre ++ a :: post).find? (fun a => !evalsToString eval a) = some a := by
  induction pre with
  | nil => simp [List.find?, ha]
  | cons b pre ih =>
    have hb := hpre b (List.mem_cons_self _ _)
    simp only [List.cons_append, List.find?, hb, Bool.not_true]
    exact ih (fun c hc => hpre c (List.mem_cons_of_mem _ hc))

/-- The run of `LoadEnv` once the configuration has a run-env section and the
globals are loaded. -/
theorem LoadEnv_eq_loop {w : World} {rootdir : String} {st : Stack} {env : RunEnv}
    {globals : Globals} (hcfg : w.ParseDir rootdir = .ok { Env := some env })
    (hglob : w.LoadGlobals rootdir st = .ok globals) :
    LoadEnv w rootdir st =
      loadEnvLoop (w.evalFor rootdir st globals) (sortedAttrs env.Attributes) [] := by
  simp [LoadEnv, hcfg, hglob, Config.HasRunEnv, Config.RunEnvAttributes, World.evalFor,
    sortedAttrs]

/-- What a successful run with entries tells about the input. -/
theorem LoadEnv_some_inv {w : World} {rootdir : String} {st : Stack} {cfg : Config}
    {vars : EnvVars} (hcfg : w.ParseDir rootdir = .ok cfg)
    (hok : LoadEnv w rootdir st = (some vars, none)) :
    ∃ env globals, cfg.Env = some env ∧ w.LoadGlobals rootdir st = .ok globals ∧
      (∀ a ∈ env.Attributes, evalsToString (w.evalFor rootdir st globals) a = true) ∧
      vars = (sortedAttrs env.Attributes).map (envEntry (w.evalFor rootdir st globals)) := by
  obtain ⟨envo⟩ := cfg
  cases envo with
  | none => simp [LoadEnv, hcfg, Config.HasRunEnv] at hok
  | some env =>
    cases hglob : w.LoadGlobals rootdir st with
    | error err => simp [LoadEnv, hcfg, hglob, Config.HasRunEnv] at hok
    | ok globals =>
      refine ⟨env, globals, rfl, rfl, ?_⟩
      rw [LoadEnv_eq_loop hcfg hglob, loadEnvLoop_eq] at hok
      cases hf : (sortedAttrs env.Attributes).find?
          (fun a => !evalsToString (w.evalFor rootdir st globals) a) with
      | some a => simp [hf] at hok
      | none =>
        simp only [hf, List.nil_append, Prod.mk.injEq, Option.some.injEq, and_true] at hok
        refine ⟨?_, hok.symm⟩
        intro a ha
        have hm : a ∈ sortedAttrs env.Attributes := (sortedAttrs_perm _).symm.subset ha
        have := List.find?_eq_none.mp hf a hm
        simpa using this

theorem takeWhile_ne_eq_append (n v : List Char) (h : '=' ∉ n) :
    (n ++ '=' :: v).takeWhile (fun c => c != '=') = n := by
  induction n with
  | nil => simp [List.takeWhile]
  | cons c n ih =>
    have hc : c ≠ '=' := fun hc => h (by simp [hc])
    have hn : '=' ∉ n := fun hn => h (List.mem_cons_of_mem _ hn)
    have hb : (c != '=') = true := by simpa using hc
    simp [List.takeWhile, hb, ih hn]

theorem envKey_entry (n v : String) (h : '=' ∉ n.data) : envKey (n ++ "=" ++ v) = n := by
  have hd : (n ++ "=" ++ v).data = n.data ++ '=' :: v.data := by
    simp [String.data_append]
  simp only [envKey, hd, takeWhile_ne_eq_append _ _ h]

theorem envKey_envEntry (eval : Expr → Except String Value) (a : Attribute)
    (h : '=' ∉ a.Name.data) : envKey (envEntry eval a) = a.Name := by
  exact envKey_entry a.Name _ h

/-! ## Properties of the loader -/

/-- C1: on every successful run of `LoadEnv` the entries are listed in
non-decreasing order of attribute name, whatever the source order: the result
is `key=value` for a list of keys that is the list of attribute names
rearranged into non-decreasing order; for names without `=` the keys are the
keys read back from the entries. -/
theorem LoadEnv_sorted_by_key (w : World) (rootdir : String) (st : Stack) (cfg : Config)
    (vars : EnvVars) (hcfg : w.ParseDir rootdir = .ok cfg)
    (hok : LoadEnv w rootdir st = (some vars, none)) :
    ∃ keys values : List String,
      keys.length = values.length ∧
      vars = List.zipWith (fun k v => k ++ "=" ++ v) keys values ∧
      keys.Perm (cfg.RunEnvAttributes.map (fun a => a.Name)) ∧
      keys.Pairwise (fun k k' => strLe k k' = true) ∧
      ((∀ a ∈ cfg.RunEnvAttributes, '=' ∉ a.Name.data) → vars.map envKey = keys) := by
  obtain ⟨env, globals, henv, _, _, hvars⟩ := LoadEnv_some_inv hcfg hok
  have hattrs : cfg.RunEnvAttributes = env.Attributes := by
    simp [Config.RunEnvAttributes, henv]
  refine ⟨(sortedAttrs env.Attributes).map (fun a => a.Name),
    (sortedAttrs env.Attributes).map (envValue (w.evalFor rootdir st globals)), ?_, ?_, ?_, ?_, ?_⟩
  · simp
  · rw [hvars, List.zipWith_map, List.zipWith_same]
    rfl
  · rw [hattrs]
    exact (sortedAttrs_perm _).map _
  · rw [List.pairwise_map]
    exact (sortedAttrs_sorted env.Attributes).imp (fun h => by simp [strLe, h])
  · intro hno
    rw [hvars, List.map_map]
    apply List.map_congr_left
    intro a ha
    have hm : a ∈ cfg.RunEnvAttributes := by
      rw [hattrs]
      exact (sortedAttrs_perm _).subset ha
    exact envKey_envEntry _ a (hno a hm)

/-- Witness of C1: `B="1"` defined before `A="2"` gives `["A=2", "B=1"]`. -/
theorem LoadEnv_sorted_by_key_witness :
    LoadEnv (sampleWorld [sampleAttr "B" "\"1\"", sampleAttr "A" "\"2\""]) "/" sampleStack
        = (some ["A=2", "B=1"], none) ∧
    ∃ keys values : List String,
      keys.length = values.length ∧
      ["A=2", "B=1"] = List.zipWith (fun k v => k ++ "=" ++ v) keys values ∧
      keys.Perm ((Config.RunEnvAttributes
        { Env := some { Attributes := [sampleAttr "B" "\"1\"", sampleAttr "A" "\"2\""] } }).map
          (fun a => a.Name)) ∧
      keys.Pairwise (fun k k' => strLe k k' = true) ∧
      ((∀ a ∈ Config.RunEnvAttributes
          { Env := some { Attributes := [sampleAttr "B" "\"1\"", sampleAttr "A" "\"2\""] } },
          '=' ∉ a.Name.data) → List.map envKey ["A=2", "B=1"] = keys) :=
  ⟨by decide,
   LoadEnv_sorted_by_key (sampleWorld [sampleAttr "B" "\"1\"", sampleAttr "A" "\"2\""]) "/"
     sampleStack { Env := some { Attributes := [sampleAttr "B" "\"1\"", sampleAttr "A" "\"2\""] } }
     ["A=2", "B=1"] rfl (by decide)⟩

/-- C4: when the configuration parses and has no run-env section, `LoadEnv`
returns an empty result (the nil slice) and no error, for every stack, and
whatever the globals loader, the evaluator and the OS environment are. -/
theorem LoadEnv_no_run_env (w : World) (rootdir : String) (st : Stack) (cfg : Config)
    (hcfg : w.ParseDir rootdir = .ok cfg) (hno : cfg.HasRunEnv = false) :
    LoadEnv w rootdir st = (none, none) ∧
    ∀ (w' : World) (st' : Stack), w'.ParseDir = w.ParseDir →
      LoadEnv w' rootdir st' = LoadEnv w rootdir st := by
  have h : ∀ (w' : World) (st' : Stack), w'.ParseDir = w.ParseDir →
      LoadEnv w' rootdir st' = (none, none) := by
    intro w' st' hp
    simp [LoadEnv, hp, hcfg, hno]
  exact ⟨h w st rfl, fun w' st' hp => (h w' st' hp).trans (h w st rfl).symm⟩

/-- Witness of C4: a configuration without run-env section, with a globals
loader that fails. -/
theorem LoadEnv_no_run_env_witness :
    LoadEnv { ParseDir := fun _ => .ok { Env := none },
              LoadGlobals := fun _ _ => .error "globals cannot be loaded",
              Environ := [], Eval := sampleEval } "/" sampleStack = (none, none) ∧
    ∀ (w' : World) (st' : Stack), w'.ParseDir = (fun _ => .ok { Env := none }) →
      LoadEnv w' "/" st' =
        LoadEnv { ParseDir := fun _ => .ok { Env := none },
                  LoadGlobals := fun _ _ => .error "globals cannot be loaded",
                  Environ := [], Eval := sampleEval } "/" sampleStack :=
  LoadEnv_no_run_env { ParseDir := fun _ => .ok { Env := none },
                       LoadGlobals := fun _ _ => .error "globals cannot be loaded",
                       Environ := [], Eval := sampleEval } "/" sampleStack { Env := none } rfl rfl

/-- C8: when the configuration parses with a run-env section, the globals load
and every attribute evaluates to a string, `LoadEnv` returns no error and the
stable name-sorted attribute list mapped through `name ++ "=" ++ value`: one
entry per declared attribute, none dropped, none duplicated, the value
unchanged. -/
theorem LoadEnv_exact_result (w : World) (rootdir : String) (st : Stack) (env : RunEnv)
    (globals : Globals) (hcfg : w.ParseDir rootdir = .ok { Env := some env })
    (hglob : w.LoadGlobals rootdir st = .ok globals)
    (hall : ∀ a ∈ env.Attributes, evalsToString (w.evalFor rootdir st globals) a = true) :
    LoadEnv w rootdir st =
      (some ((sortedAttrs env.Attributes).map (envEntry (w.evalFor rootdir st globals))), none) ∧
    ((sortedAttrs env.Attributes).map (envEntry (w.evalFor rootdir st globals))).length
      = env.Attributes.length ∧
    ((sortedAttrs env.Attributes).map (envEntry (w.evalFor rootdir st globals))).Perm
      (env.Attributes.map (envEntry (w.evalFor rootdir st globals))) ∧
    (∀ a ∈ env.Attributes, ∀ s, w.evalFor rootdir st globals a.Expr = .ok (.str s) →
      envEntry (w.evalFor rootdir st globals) a = a.Name ++ "=" ++ s) ∧
    (∀ a ∈ env.Attributes, ∃ s, w.evalFor rootdir st globals a.Expr = .ok (.str s)) := by
  refine ⟨?_, ?_, ?_, ?_, ?_⟩
  · rw [LoadEnv_eq_loop hcfg hglob, loadEnvLoop_eq, find_faulty_none]
    · simp
    · intro a ha
      exact hall a ((sortedAttrs_perm _).subset ha)
  · rw [List.length_map]
    exact (sortedAttrs_perm _).length_eq
  · exact (sortedAttrs_perm _).map _
  · intro a _ s hs
    simp [envEntry, envValue, hs, Value.AsString]
  · intro a ha
    have := hall a ha
    unfold evalsToString at this
    cases hev : w.evalFor rootdir st globals a.Expr with
    | error err => simp [hev] at this
    | ok val =>
      cases val <;> simp [hev, Value.Type] at this
      exact ⟨_, rfl⟩

/-- Witness of C8: two attributes given out of order. -/
theorem LoadEnv_exact_result_witness :
    LoadEnv (sampleWorld [sampleAttr "B" "\"1\"", sampleAttr "A" "\"2\""]) "/" sampleStack
        = (some ["A=2", "B=1"], none) ∧
    (LoadEnv (sampleWorld [sampleAttr "B" "\"1\"", sampleAttr "A" "\"2\""]) "/" sampleStack =
      (some ((sortedAttrs [sampleAttr "B" "\"1\"", sampleAttr "A" "\"2\""]).map
        (envEntry ((sampleWorld [sampleAttr "B" "\"1\"", sampleAttr "A" "\"2\""]).evalFor
          "/" sampleStack []))), none)) :=
  ⟨by decide,
   (LoadEnv_exact_result (sampleWorld [sampleAttr "B" "\"1\"", sampleAttr "A" "\"2\""]) "/"
     sampleStack { Attributes := [sampleAttr "B" "\"1\"", sampleAttr "A" "\"2\""] } [] rfl rfl
     (by decide)).1⟩

/-- The error part of a run is never of kind `ErrInvalidEnvVarType` or `ErrEval`
unless it is the error of a faulty attribute; in general, the run is the loop
result, a parsing error, a globals error, or the empty result. -/
theorem LoadEnv_cases (w : World) (rootdir : String) (st : Stack) :
    (∃ err, w.ParseDir rootdir = .error err ∧
      LoadEnv w rootdir st = (none, some (parseError err))) ∨
    (w.ParseDir rootdir = .ok { Env := none } ∧ LoadEnv w rootdir st = (none, none)) ∨
    (∃ env err, w.ParseDir rootdir = .ok { Env := some env } ∧
      w.LoadGlobals rootdir st = .error err ∧
      LoadEnv w rootdir st = (none, some (globalsError err))) ∨
    (∃ env globals, w.ParseDir rootdir = .ok { Env := some env } ∧
      w.LoadGlobals rootdir st = .ok globals ∧
      LoadEnv w rootdir st =
        loadEnvLoop (w.evalFor rootdir st globals) (sortedAttrs env.Attributes) []) := by
  cases hcfg : w.ParseDir rootdir with
  | error err => exact Or.inl ⟨err, rfl, by simp [LoadEnv, hcfg]⟩
  | ok cfg =>
    obtain ⟨envo⟩ := cfg
    cases envo with
    | none => exact Or.inr (Or.inl ⟨rfl, by simp [LoadEnv, hcfg, Config.HasRunEnv]⟩)
    | some env =>
      cases hglob : w.LoadGlobals rootdir st with
      | error err =>
        exact Or.inr (Or.inr (Or.inl ⟨env, err, rfl, rfl,
          by simp [LoadEnv, hcfg, hglob, Config.HasRunEnv]⟩))
      | ok globals =>
        exact Or.inr (Or.inr (Or.inr ⟨env, globals, rfl, rfl, LoadEnv_eq_loop hcfg hglob⟩))

/-- C3: when the configuration parses with a run-env section and the globals
load, an attribute that evaluates to a non-string, every attribute sorted
before it evaluating to a string, makes `LoadEnv` fail with
`ErrInvalidEnvVarType` and return the nil slice; and `LoadEnv` never returns
`ErrInvalidEnvVarType` when every attribute evaluates to a string. -/
theorem LoadEnv_type_enforcement (w : World) (rootdir : String) (st : Stack) :
    (∀ (env : RunEnv) (globals : Globals) (pre post : List Attribute) (a : Attribute)
        (val : Value),
      w.ParseDir rootdir = .ok { Env := some env } →
      w.LoadGlobals rootdir st = .ok globals →
      sortedAttrs env.Attributes = pre ++ a :: post →
      (∀ b ∈ pre, evalsToString (w.evalFor rootdir st globals) b = true) →
      w.evalFor rootdir st globals a.Expr = .ok val →
      val.Type ≠ CtyType.string →
      LoadEnv w rootdir st = (none, some (typeError a val)) ∧
      (typeError a val).kind = Kind.ErrInvalidEnvVarType) ∧
    ((∀ (cfg : Config) (globals : Globals), w.ParseDir rootdir = .ok cfg →
        w.LoadGlobals rootdir st = .ok globals →
        ∀ a ∈ cfg.RunEnvAttributes, evalsToString (w.evalFor rootdir st globals) a = true) →
      ∀ e, (LoadEnv w rootdir st).2 = some e → e.kind ≠ Kind.ErrInvalidEnvVarType) := by
  constructor
  · intro env globals pre post a val hcfg hglob hsplit hpre hev hty
    refine ⟨?_, rfl⟩
    have ha : evalsToString (w.evalFor rootdir st globals) a = false := by
      simp [evalsToString, hev, hty]
    rw [LoadEnv_eq_loop hcfg hglob, loadEnvLoop_eq, hsplit, find_faulty_split hpre ha]
    simp [attrError, hev, hty]
  · intro hall e he
    rcases LoadEnv_cases w rootdir st with ⟨err, _, h⟩ | ⟨_, h⟩ | ⟨env, err, _, _, h⟩ |
      ⟨env, globals, hcfg, hglob, h⟩
    · rw [h] at he
      simp only [Option.some.injEq] at he
      rw [← he]
      simp [parseError]
    · rw [h] at he
      simp at he
    · rw [h] at he
      simp only [Option.some.injEq] at he
      rw [← he]
      simp [globalsError]
    · have hgood : ∀ a ∈ sortedAttrs env.Attributes,
          evalsToString (w.evalFor rootdir st globals) a = true := by
        intro a ha
        have := hall _ globals hcfg hglob a
        simp only [Config.RunEnvAttributes] at this
        exact this ((sortedAttrs_perm _).subset ha)
      rw [h, loadEnvLoop_eq, find_faulty_none hgood] at he
      simp at he

/-- Witness of C3: `A` is a string and `B` a number; and a list of strings
only. -/
theorem LoadEnv_type_enforcement_witness :
    LoadEnv (sampleWorld [sampleAttr "B" "1", sampleAttr "A" "\"2\""]) "/" sampleStack
      = (none, some (typeError (sampleAttr "B" "1") (.number 1))) ∧
    (∀ e, (LoadEnv (sampleWorld [sampleAttr "B" "\"1\"", sampleAttr "A" "\"2\""]) "/"
      sampleStack).2 = some e → e.kind ≠ Kind.ErrInvalidEnvVarType) :=
  ⟨((LoadEnv_type_enforcement (sampleWorld [sampleAttr "B" "1", sampleAttr "A" "\"2\""]) "/"
      sampleStack).1 { Attributes := [sampleAttr "B" "1", sampleAttr "A" "\"2\""] } []
      [sampleAttr "A" "\"2\""] [] (sampleAttr "B" "1") (.number 1) rfl rfl (by decide)
      (by decide) rfl (by decide)).1,
   (LoadEnv_type_enforcement (sampleWorld [sampleAttr "B" "\"1\"", sampleAttr "A" "\"2\""]) "/"
      sampleStack).2 (by
        intro cfg globals hcfg hglob
        cases hcfg
        cases hglob
        decide)⟩

/-- C5: when the configuration parses with a run-env section and the globals
load, an attribute whose evaluation fails, every attribute sorted before it
evaluating to a string, makes `LoadEnv` fail with `ErrEval`, wrapping the
error of the evaluator and carrying the name range and origin of that
attribute, and return the nil slice. -/
theorem LoadEnv_eval_failure (w : World) (rootdir : String) (st : Stack) (env : RunEnv)
    (globals : Globals) (pre post : List Attribute) (a : Attribute) (err : String)
    (hcfg : w.ParseDir rootdir = .ok { Env := some env })
    (hglob : w.LoadGlobals rootdir st = .ok globals)
    (hsplit : sortedAttrs env.Attributes = pre ++ a :: post)
    (hpre : ∀ b ∈ pre, evalsToString (w.evalFor rootdir st globals) b = true)
    (hev : w.evalFor rootdir st globals a.Expr = .error err) :
    LoadEnv w rootdir st = (none, some (evalError a err)) ∧
    (evalError a err).kind = Kind.ErrEval ∧
    (evalError a err).cause = some err ∧
    (evalError a err).fileRange = some a.NameRange ∧
    (evalError a err).description = "attribute origin " ++ a.Origin := by
  refine ⟨?_, rfl, rfl, rfl, rfl⟩
  have ha : evalsToString (w.evalFor rootdir st globals) a = false := by
    simp [evalsToString, hev]
  rw [LoadEnv_eq_loop hcfg hglob, loadEnvLoop_eq, hsplit, find_faulty_split hpre ha]
  simp [attrError, hev]

/-- Witness of C5: `A` is a string and `B` refers to an unknown variable. -/
theorem LoadEnv_eval_failure_witness :
    LoadEnv (sampleWorld [sampleAttr "B" "global.x", sampleAttr "A" "\"2\""]) "/" sampleStack
      = (none, some (evalError (sampleAttr "B" "global.x") "unknown variable")) :=
  (LoadEnv_eval_failure (sampleWorld [sampleAttr "B" "global.x", sampleAttr "A" "\"2\""]) "/"
    sampleStack { Attributes := [sampleAttr "B" "global.x", sampleAttr "A" "\"2\""] } []
    [sampleAttr "A" "\"2\""] [] (sampleAttr "B" "global.x") "unknown variable" rfl rfl
    (by decide) (by decide) rfl).1

/-- C10: when attributes are faulty, `LoadEnv` reports the error of the faulty
attribute that comes first in the stable name-sorted order, of kind `ErrEval`
if its evaluation fails and `ErrInvalidEnvVarType` if it evaluates to a
non-string; and whenever `LoadEnv` returns an error, the returned slice is
nil. -/
theorem LoadEnv_first_error (w : World) (rootdir : String) (st : Stack) :
    (∀ (env : RunEnv) (globals : Globals) (a : Attribute),
      w.ParseDir rootdir = .ok { Env := some env } →
      w.LoadGlobals rootdir st = .ok globals →
      (sortedAttrs env.Attributes).find?
        (fun b => !evalsToString (w.evalFor rootdir st globals) b) = some a →
      ∃ e, LoadEnv w rootdir st = (none, some e) ∧
        attrError (w.evalFor rootdir st globals) a = some e ∧
        e.kind = (match w.evalFor rootdir st globals a.Expr with
                  | .error _ => Kind.ErrEval
                  | .ok _ => Kind.ErrInvalidEnvVarType)) ∧
    ((LoadEnv w rootdir st).2 ≠ none → (LoadEnv w rootdir st).1 = none) := by
  constructor
  · intro env globals a hcfg hglob hfind
    have hbad : evalsToString (w.evalFor rootdir st globals) a = false := by
      have := List.find?_some hfind
      simpa using this
    rw [LoadEnv_eq_loop hcfg hglob, loadEnvLoop_eq, hfind]
    show ∃ e, (none, attrError (w.evalFor rootdir st globals) a) = (none, some e) ∧ _
    unfold evalsToString at hbad
    unfold attrError
    cases hev : w.evalFor rootdir st globals a.Expr with
    | error err => exact ⟨_, rfl, rfl, rfl⟩
    | ok val =>
      have hty : val.Type ≠ CtyType.string := by simpa [hev] using hbad
      simp only [hty, ne_eq, not_false_eq_true, if_true]
      exact ⟨_, rfl, rfl, rfl⟩
  · intro herr
    rcases LoadEnv_cases w rootdir st with ⟨err, _, h⟩ | ⟨_, h⟩ | ⟨env, err, _, _, h⟩ |
      ⟨env, globals, hcfg, hglob, h⟩
    · rw [h]
    · rw [h]
    · rw [h]
    · rw [h, loadEnvLoop_eq] at herr ⊢
      cases hf : (sortedAttrs env.Attributes).find?
          (fun a => !evalsToString (w.evalFor rootdir st globals) a) with
      | some a => simp
      | none => simp [hf] at herr

/-- Witness of C10: `B`, first in source order, is a number, and `A`, first in
sorted order, fails to evaluate: the error is the one of `A`. -/
theorem LoadEnv_first_error_witness :
    (∃ e, LoadEnv (sampleWorld [sampleAttr "B" "1", sampleAttr "A" "global.x"]) "/" sampleStack
        = (none, some e) ∧
      attrError ((sampleWorld [sampleAttr "B" "1", sampleAttr "A" "global.x"]).evalFor "/"
        sampleStack []) (sampleAttr "A" "global.x") = some e ∧
      e.kind = Kind.ErrEval) ∧
    LoadEnv (sampleWorld [sampleAttr "B" "1", sampleAttr "A" "global.x"]) "/" sampleStack
      = (none, some (evalError (sampleAttr "A" "global.x") "unknown variable")) :=
  ⟨(LoadEnv_first_error (sampleWorld [sampleAttr "B" "1", sampleAttr "A" "global.x"]) "/"
      sampleStack).1 { Attributes := [sampleAttr "B" "1", sampleAttr "A" "global.x"] } []
      (sampleAttr "A" "global.x") rfl rfl (by decide),
   by decide⟩

/-! ## Stability -/

theorem sortStable_filter_pairwise {α : Type} (less : α → α → Bool) (p : α → Bool)
    (l : List α) (h : l.Pairwise (fun a b => p a = true → p b = true → less b a = false)) :
    (sortStable less l).filter p = l.filter p := by
  induction l with
  | nil => rfl
  | cons a l ih =>
    rw [List.pairwise_cons] at h
    simp only [sortStable]
    rw [insertStable_filter less p a _
      (fun ha b hb hpb => h.1 b ((sortStable_perm less l).subset hb) ha hpb)]
    simp only [List.filter_cons, ih h.2]

theorem withIndex_map_snd : ∀ (i : Nat) (l : List Attribute),
    (withIndex i l).map Prod.snd = l
  | _, [] => rfl
  | i, a :: l => by simp [withIndex, withIndex_map_snd (i + 1) l]

theorem withIndex_index_ge : ∀ (i : Nat) (l : List Attribute),
    ∀ x ∈ withIndex i l, i ≤ x.1
  | _, [], x, hx => by simp [withIndex] at hx
  | i, a :: l, x, hx => by
    simp only [withIndex, List.mem_cons] at hx
    rcases hx with rfl | hx
    · exact Nat.le_refl _
    · exact Nat.le_of_succ_le (withIndex_index_ge (i + 1) l x hx)

theorem withIndex_pairwise : ∀ (i : Nat) (l : List Attribute),
    (withIndex i l).Pairwise (fun x y => x.1 < y.1)
  | _, [] => List.Pairwise.nil
  | i, a :: l => by
    simp only [withIndex]
    rw [List.pairwise_cons]
    exact ⟨fun y hy => withIndex_index_ge (i + 1) l y hy, withIndex_pairwise (i + 1) l⟩

theorem lessByNameThenIndex_asymm (x y : Nat × Attribute)
    (h : lessByNameThenIndex x y = true) : lessByNameThenIndex y x = false := by
  simp only [lessByNameThenIndex, Bool.or_eq_true, Bool.and_eq_true, beq_iff_eq,
    decide_eq_true_eq, Bool.or_eq_false_iff, Bool.and_eq_false_imp] at h ⊢
  rcases h with h | ⟨hn, hi⟩
  · refine ⟨strLess_asymm h, fun hn => ?_⟩
    rw [hn, strLess_irrefl] at h
    exact absurd h (by simp)
  · refine ⟨?_, fun _ => by simp; omega⟩
    rw [hn]
    exact strLess_irrefl _

theorem lessByNameThenIndex_false_iff (x y : Nat × Attribute) :
    lessByNameThenIndex y x = false ↔
      strLess y.2.Name x.2.Name = false ∧ (y.2.Name = x.2.Name → x.1 ≤ y.1) := by
  simp only [lessByNameThenIndex, Bool.or_eq_false_iff, Bool.and_eq_false_imp, beq_iff_eq,
    decide_eq_false_iff_not, Nat.not_lt]

theorem lessByNameThenIndex_le_trans (a b c : Nat × Attribute)
    (h : lessByNameThenIndex b a = false) (h' : lessByNameThenIndex c b = false) :
    lessByNameThenIndex c a = false := by
  rw [lessByNameThenIndex_false_iff] at h h' ⊢
  refine ⟨strLe_trans h.1 h'.1, fun hca => ?_⟩
  have hab : strLess a.2.Name b.2.Name = false := by
    rw [← hca]
    exact h'.1
  have hba : b.2.Name = a.2.Name := strLess_eq_of_not_lt h.1 hab
  have hcb : c.2.Name = b.2.Name := hca.trans hba.symm
  exact Nat.le_trans (h.2 hba) (h'.2 hcb)

/-- The stable sort by name is the sort by name with ties resolved by
insertion index: the index-tagged list, arranged in strictly increasing order
of name and index, gives the stable name-sorted list. -/
theorem sortedAttrs_eq_by_index (attrs : List Attribute) :
    ∃ l : List (Nat × Attribute), l.Perm (withIndex 0 attrs) ∧
      l.Pairwise (fun x y => lessByNameThenIndex x y = true) ∧
      sortedAttrs attrs = l.map Prod.snd := by
  refine ⟨sortStable lessByNameThenIndex (withIndex 0 attrs), sortStable_perm _ _, ?_, ?_⟩
  · have hs := sortStable_sorted lessByNameThenIndex lessByNameThenIndex_asymm
      lessByNameThenIndex_le_trans (withIndex 0 attrs)
    have hne : (sortStable lessByNameThenIndex (withIndex 0 attrs)).Pairwise
        (fun x y => x.1 ≠ y.1) := by
      have h0 : (withIndex 0 attrs).Pairwise (fun x y => x.1 ≠ y.1) :=
        (withIndex_pairwise 0 attrs).imp (fun h => Nat.ne_of_lt h)
      exact ((sortStable_perm lessByNameThenIndex (withIndex 0 attrs)).pairwise_iff
        (fun {x y} (h : x.1 ≠ y.1) => h.symm)).mpr h0
    refine (hs.and hne).imp ?_
    intro x y hxy
    obtain ⟨h1, h2⟩ := hxy
    rw [lessByNameThenIndex_false_iff] at h1
    simp only [lessByNameThenIndex, Bool.or_eq_true, Bool.and_eq_true, beq_iff_eq,
      decide_eq_true_eq]
    by_cases hlt : strLess x.2.Name y.2.Name = true
    · exact Or.inl hlt
    · have hn : x.2.Name = y.2.Name :=
        strLess_eq_of_not_lt (by simpa using hlt) h1.1
      exact Or.inr ⟨hn, by have := h1.2 hn.symm; omega⟩
  · symm
    apply stable_sort_unique
    · rw [List.pairwise_map]
      have hs := sortStable_sorted lessByNameThenIndex lessByNameThenIndex_asymm
        lessByNameThenIndex_le_trans (withIndex 0 attrs)
      exact hs.imp (fun h => ((lessByNameThenIndex_false_iff _ _).mp h).1)
    · exact sortedAttrs_sorted attrs
    · intro n
      rw [sortedAttrs_filter, List.filter_map]
      have hf := sortStable_filter_pairwise lessByNameThenIndex
        ((fun a : Attribute => a.Name == n) ∘ Prod.snd) (withIndex 0 attrs)
        ((withIndex_pairwise 0 attrs).imp (fun {x y} hlt hx hy => by
          have hx' : x.2.Name = n := by simpa using hx
          have hy' : y.2.Name = n := by simpa using hy
          rw [lessByNameThenIndex_false_iff]
          refine ⟨?_, fun _ => Nat.le_of_lt hlt⟩
          rw [hx', hy']
          exact strLess_irrefl n))
      rw [hf, ← List.filter_map, withIndex_map_snd]

/-- Attributes of equal name keep their relative order in the sorted list. -/
theorem sortedAttrs_sublist_of_tie (attrs : List Attribute) (a b : Attribute)
    (hab : [a, b].Sublist attrs) (hn : a.Name = b.Name) : [a, b].Sublist (sortedAttrs attrs) := by
  have h1 : ([a, b].filter (fun x => x.Name == a.Name)).Sublist
      (attrs.filter (fun x => x.Name == a.Name)) := hab.filter _
  have h2 : [a, b].filter (fun x => x.Name == a.Name) = [a, b] := by
    simp [List.filter_cons, hn]
  rw [h2, ← sortedAttrs_filter] at h1
  exact h1.trans (List.filter_sublist _)

/-- C6: the sort applied by `LoadEnv` is stable.  On a successful run the
result is the list of entries of the attributes ordered by name with ties
resolved by original insertion index; every attribute keeps its entry; and two
attributes of the same name have their entries in the result in the same
relative order as in the original list. -/
theorem LoadEnv_stable (w : World) (rootdir : String) (st : Stack) (env : RunEnv)
    (globals : Globals) (hcfg : w.ParseDir rootdir = .ok { Env := some env })
    (hglob : w.LoadGlobals rootdir st = .ok globals)
    (hall : ∀ a ∈ env.Attributes, evalsToString (w.evalFor rootdir st globals) a = true) :
    ∃ (l : List (Nat × Attribute)) (vars : EnvVars),
      LoadEnv w rootdir st = (some vars, none) ∧
      l.Perm (withIndex 0 env.Attributes) ∧
      l.Pairwise (fun x y => lessByNameThenIndex x y = true) ∧
      vars = l.map (fun x => envEntry (w.evalFor rootdir st globals) x.2) ∧
      vars.length = env.Attributes.length ∧
      (∀ a b : Attribute, [a, b].Sublist env.Attributes → a.Name = b.Name →
        [envEntry (w.evalFor rootdir st globals) a,
         envEntry (w.evalFor rootdir st globals) b].Sublist vars) := by
  obtain ⟨l, hperm, hsorted, hl⟩ := sortedAttrs_eq_by_index env.Attributes
  have hrun : LoadEnv w rootdir st =
      (some ((sortedAttrs env.Attributes).map (envEntry (w.evalFor rootdir st globals))),
        none) := by
    rw [LoadEnv_eq_loop hcfg hglob, loadEnvLoop_eq, find_faulty_none]
    · simp
    · intro a ha
      exact hall a ((sortedAttrs_perm _).subset ha)
  refine ⟨l, _, hrun, hperm, hsorted, ?_, ?_, ?_⟩
  · rw [hl, List.map_map]
    rfl
  · rw [List.length_map]
    exact (sortedAttrs_perm _).length_eq
  · intro a b hab hn
    exact (sortedAttrs_sublist_of_tie env.Attributes a b hab hn).map _

/-- Witness of C6: the name `A` is contributed twice, after `B`; the two `A`
entries come first, in their original order. -/
theorem LoadEnv_stable_witness :
    LoadEnv (sampleWorld [sampleAttr "B" "\"1\"", sampleAttr "A" "\"2\"", sampleAttr "A" "\"1\""])
        "/" sampleStack = (some ["A=2", "A=1", "B=1"], none) ∧
    ∃ (l : List (Nat × Attribute)) (vars : EnvVars),
      LoadEnv (sampleWorld [sampleAttr "B" "\"1\"", sampleAttr "A" "\"2\"",
        sampleAttr "A" "\"1\""]) "/" sampleStack = (some vars, none) ∧
      l.Perm (withIndex 0 (RunEnv.Attributes { Attributes :=
        [sampleAttr "B" "\"1\"", sampleAttr "A" "\"2\"", sampleAttr "A" "\"1\""] })) ∧
      l.Pairwise (fun x y => lessByNameThenIndex x y = true) ∧
      vars = l.map (fun x => envEntry ((sampleWorld [sampleAttr "B" "\"1\"",
        sampleAttr "A" "\"2\"", sampleAttr "A" "\"1\""]).evalFor "/" sampleStack []) x.2) ∧
      vars.length = (RunEnv.Attributes { Attributes :=
        [sampleAttr "B" "\"1\"", sampleAttr "A" "\"2\"", sampleAttr "A" "\"1\""] }).length ∧
      (∀ a b : Attribute, [a, b].Sublist (RunEnv.Attributes { Attributes :=
          [sampleAttr "B" "\"1\"", sampleAttr "A" "\"2\"", sampleAttr "A" "\"1\""] }) →
        a.Name = b.Name →
        [envEntry ((sampleWorld [sampleAttr "B" "\"1\"", sampleAttr "A" "\"2\"",
            sampleAttr "A" "\"1\""]).evalFor "/" sampleStack []) a,
         envEntry ((sampleWorld [sampleAttr "B" "\"1\"", sampleAttr "A" "\"2\"",
            sampleAttr "A" "\"1\""]).evalFor "/" sampleStack []) b].Sublist vars) :=
  ⟨by decide,
   LoadEnv_stable (sampleWorld [sampleAttr "B" "\"1\"", sampleAttr "A" "\"2\"",
     sampleAttr "A" "\"1\""]) "/" sampleStack
     { Attributes := [sampleAttr "B" "\"1\"", sampleAttr "A" "\"2\"", sampleAttr "A" "\"1\""] }
     [] rfl rfl (by decide)⟩

/-! ## Order independence -/

theorem filter_name_length_le_one : ∀ (l : List Attribute) (n : String),
    (l.map (fun a => a.Name)).Nodup → (l.filter (fun a => a.Name == n)).length ≤ 1
  | [], _, _ => by simp
  | a :: l, n, h => by
    rw [List.map_cons, List.nodup_cons] at h
    have ih := filter_name_length_le_one l n h.2
    by_cases hn : a.Name = n
    · have hnone : l.filter (fun b => b.Name == n) = [] := by
        rw [List.filter_eq_nil_iff]
        intro b hb hbn
        apply h.1
        rw [hn]
        have : b.Name = n := by simpa using hbn
        rw [← this]
        exact List.mem_map_of_mem _ hb
      simp [List.filter_cons, hn, hnone]
    · simp [List.filter_cons, hn, ih]

theorem perm_eq_of_length_le_one {α : Type} : ∀ (l₁ l₂ : List α),
    l₁.Perm l₂ → l₁.length ≤ 1 → l₁ = l₂
  | [], l₂, h, _ => (List.perm_nil.mp h.symm).symm
  | [a], l₂, h, _ => (List.perm_singleton.mp h.symm).symm
  | _ :: _ :: _, _, _, hlen => by simp at hlen

/-- Two attribute lists that are permutations of each other, with pairwise
distinct names, are visited in the same order. -/
theorem sortedAttrs_perm_invariant (l₁ l₂ : List Attribute) (hperm : l₁.Perm l₂)
    (hnodup : (l₁.map (fun a => a.Name)).Nodup) : sortedAttrs l₁ = sortedAttrs l₂ := by
  apply stable_sort_unique _ _ (sortedAttrs_sorted l₁) (sortedAttrs_sorted l₂)
  intro n
  rw [sortedAttrs_filter, sortedAttrs_filter]
  exact perm_eq_of_length_le_one _ _ (hperm.filter _) (filter_name_length_le_one l₁ n hnodup)

/-- C9: for two run-env attribute lists that are permutations of each other
with pairwise distinct names, and the same globals loader, OS environment and
evaluator, `LoadEnv` returns the identical outcome: the same entries in the
same order, or the same error. -/
theorem LoadEnv_order_independent (w₁ w₂ : World) (rootdir : String) (st : Stack)
    (env₁ env₂ : RunEnv)
    (hcfg₁ : w₁.ParseDir rootdir = .ok { Env := some env₁ })
    (hcfg₂ : w₂.ParseDir rootdir = .ok { Env := some env₂ })
    (hglob : w₁.LoadGlobals = w₂.LoadGlobals) (henviron : w₁.Environ = w₂.Environ)
    (heval : w₁.Eval = w₂.Eval)
    (hperm : env₁.Attributes.Perm env₂.Attributes)
    (hnodup : (env₁.Attributes.map (fun a => a.Name)).Nodup) :
    LoadEnv w₁ rootdir st = LoadEnv w₂ rootdir st := by
  have hs := sortedAttrs_perm_invariant _ _ hperm hnodup
  simp only [sortedAttrs] at hs
  simp only [LoadEnv, hcfg₁, hcfg₂, Config.HasRunEnv, Config.RunEnvAttributes, hglob, henviron,
    heval, hs, Option.isSome]

/-- Witness of C9: `B, A` and `A, B`, on a success and on a failure. -/
theorem LoadEnv_order_independent_witness :
    LoadEnv (sampleWorld [sampleAttr "B" "\"1\"", sampleAttr "A" "\"2\""]) "/" sampleStack =
      LoadEnv (sampleWorld [sampleAttr "A" "\"2\"", sampleAttr "B" "\"1\""]) "/" sampleStack ∧
    LoadEnv (sampleWorld [sampleAttr "B" "1", sampleAttr "A" "global.x"]) "/" sampleStack =
      LoadEnv (sampleWorld [sampleAttr "A" "global.x", sampleAttr "B" "1"]) "/" sampleStack :=
  ⟨LoadEnv_order_independent (sampleWorld [sampleAttr "B" "\"1\"", sampleAttr "A" "\"2\""])
     (sampleWorld [sampleAttr "A" "\"2\"", sampleAttr "B" "\"1\""]) "/" sampleStack
     { Attributes := [sampleAttr "B" "\"1\"", sampleAttr "A" "\"2\""] }
     { Attributes := [sampleAttr "A" "\"2\"", sampleAttr "B" "\"1\""] }
     rfl rfl rfl rfl rfl (List.Perm.swap _ _ []) (by decide),
   LoadEnv_order_independent (sampleWorld [sampleAttr "B" "1", sampleAttr "A" "global.x"])
     (sampleWorld [sampleAttr "A" "global.x", sampleAttr "B" "1"]) "/" sampleStack
     { Attributes := [sampleAttr "B" "1", sampleAttr "A" "global.x"] }
     { Attributes := [sampleAttr "A" "global.x", sampleAttr "B" "1"] }
     rfl rfl rfl rfl rfl (List.Perm.swap _ _ []) (by decide)⟩

/-! ## Order of the whole entries -/

/-- Two names in order, distinct, the longer one not continuing the shorter
one with a character at or below `=`: the entries are in order. -/
theorem ltChars_entry : ∀ (xn yn xv yv : List Char),
    ltChars yn xn = false → xn ≠ yn →
    (∀ (c : Char) (r : List Char), yn = xn ++ c :: r → '='.toNat < c.toNat) →
    ltChars (yn ++ '=' :: yv) (xn ++ '=' :: xv) = false
  | [], [], _, _, _, hne, _ => absurd rfl hne
  | [], c :: r, xv, yv, _, _, hp => by
    have hc := hp c r rfl
    have h1 : ¬ c.toNat < '='.toNat := by omega
    simp only [List.cons_append, List.nil_append, ltChars, h1, hc, if_true, if_false]
  | a :: as, [], _, _, h, _, _ => by simp [ltChars] at h
  | a :: as, b :: bs, xv, yv, h, hne, hp => by
    simp only [ltChars] at h
    simp only [List.cons_append, ltChars]
    by_cases h1 : b.toNat < a.toNat
    · simp [h1] at h
    · by_cases h2 : a.toNat < b.toNat
      · simp [h1, h2]
      · simp only [h1, h2, if_false] at h ⊢
        have hc : a = b := by
          apply Char.ext
          apply UInt32.ext
          have : a.toNat = b.toNat := by omega
          simpa [Char.toNat, UInt32.toNat] using this
        subst hc
        apply ltChars_entry as bs xv yv h
        · intro hab
          exact hne (by rw [hab])
        · intro c r hbs
          exact hp c r (by rw [hbs]; rfl)

/-- C2, as amended: on a successful run, when the attribute names are pairwise
distinct and no name is another name followed by a character at or below `=`,
the entries themselves are in lexicographic order. -/
theorem LoadEnv_entries_sorted (w : World) (rootdir : String) (st : Stack) (cfg : Config)
    (vars : EnvVars) (hcfg : w.ParseDir rootdir = .ok cfg)
    (hok : LoadEnv w rootdir st = (some vars, none))
    (hnodup : (cfg.RunEnvAttributes.map (fun a => a.Name)).Nodup)
    (hsafe : PrefixSafe cfg.RunEnvAttributes) :
    vars.Pairwise (fun x y => strLe x y = true) := by
  obtain ⟨env, globals, henv, _, _, hvars⟩ := LoadEnv_some_inv hcfg hok
  have hattrs : cfg.RunEnvAttributes = env.Attributes := by
    simp [Config.RunEnvAttributes, henv]
  rw [hattrs] at hnodup hsafe
  have hnd : (sortedAttrs env.Attributes).Pairwise (fun x y => x.Name ≠ y.Name) := by
    have : ((sortedAttrs env.Attributes).map (fun a => a.Name)).Nodup :=
      ((sortedAttrs_perm env.Attributes).map _).nodup_iff.mpr hnodup
    exact List.pairwise_map.mp this
  have hmem : (sortedAttrs env.Attributes).Pairwise
      (fun x y => x ∈ env.Attributes ∧ y ∈ env.Attributes) := by
    rw [List.pairwise_iff_forall_sublist]
    intro x y hxy
    have hx : x ∈ sortedAttrs env.Attributes := hxy.subset (by simp)
    have hy : y ∈ sortedAttrs env.Attributes := hxy.subset (by simp)
    exact ⟨(sortedAttrs_perm _).subset hx, (sortedAttrs_perm _).subset hy⟩
  rw [hvars, List.pairwise_map]
  refine (((sortedAttrs_sorted env.Attributes).and hnd).and hmem).imp ?_
  intro x y hxy
  obtain ⟨⟨hle, hne⟩, hx, hy⟩ := hxy
  have hd : ∀ z : Attribute, (envEntry (w.evalFor rootdir st globals) z).data =
      z.Name.data ++ '=' :: (envValue (w.evalFor rootdir st globals) z).data := by
    intro z
    simp [envEntry, String.data_append]
  simp only [strLe, strLess, hd, Bool.not_eq_true']
  apply ltChars_entry _ _ _ _ hle
  · intro hdata
    apply hne
    cases hxn : x.Name
    cases hyn : y.Name
    simp_all
  · intro c r hyx
    exact hsafe x hx y hy c r hyx

/-- Witness of C2 as amended: the names `A` and `AB`. -/
theorem LoadEnv_entries_sorted_witness :
    LoadEnv (sampleWorld [sampleAttr "AB" "\"1\"", sampleAttr "A" "\"2\""]) "/" sampleStack
        = (some ["A=2", "AB=1"], none) ∧
    List.Pairwise (fun x y => strLe x y = true) ["A=2", "AB=1"] :=
  ⟨by decide,
   LoadEnv_entries_sorted (sampleWorld [sampleAttr "AB" "\"1\"", sampleAttr "A" "\"2\""]) "/"
     sampleStack { Env := some { Attributes := [sampleAttr "AB" "\"1\"", sampleAttr "A" "\"2\""] } }
     ["A=2", "AB=1"] rfl (by decide) (by decide) (by
       intro a ha b hb c r h
       simp only [Config.RunEnvAttributes, List.mem_cons, List.mem_singleton,
         List.not_mem_nil, or_false] at ha hb
       rcases ha with rfl | rfl <;> rcases hb with rfl | rfl <;>
         simp [sampleAttr] at h
       obtain ⟨rfl, _⟩ := h
       decide)⟩

/-- Counterexample to C2: the names `A` and `A-B` are in order, the entries
`A=1` and `A-B=2` are returned in that order, and `A-B=2` is smaller than
`A=1` as a string. -/
theorem LoadEnv_entries_not_sorted :
    LoadEnv (sampleWorld [sampleAttr "A" "\"1\"", sampleAttr "A-B" "\"2\""]) "/" sampleStack
        = (some ["A=1", "A-B=2"], none) ∧
    strLess "A-B=2" "A=1" = true ∧
    ¬ List.Pairwise (fun x y => strLe x y = true) ["A=1", "A-B=2"] := by
  refine ⟨by decide, by decide, ?_⟩
  simp only [List.pairwise_cons, List.mem_singleton, forall_eq, List.not_mem_nil,
    false_implies, implies_true, List.Pairwise.nil, and_true]
  decide

/-! ## Watch resolution -/

theorem normalize_segments : ∀ (segs kept : List String),
    (∀ s ∈ kept, s ≠ "" ∧ s ≠ "." ∧ s ≠ "..") →
    ∀ s ∈ normalize segs kept, s ≠ "" ∧ s ≠ "." ∧ s ≠ ".."
  | [], kept, h, s, hs => by
    simp only [normalize, List.mem_reverse] at hs
    exact h s hs
  | seg :: rest, kept, h, s, hs => by
    simp only [normalize] at hs
    by_cases h1 : seg = "" ∨ seg = "."
    · simp only [h1, if_true] at hs
      exact normalize_segments rest kept h s hs
    · simp only [h1, if_false] at hs
      by_cases h2 : seg = ".."
      · simp only [h2, if_true] at hs
        exact normalize_segments rest kept.tail
          (fun t ht => h t (List.mem_of_mem_tail ht)) s hs
      · simp only [h2, if_false] at hs
        refine normalize_segments rest (seg :: kept) ?_ s hs
        intro t ht
        rcases List.mem_cons.mp ht with rfl | ht'
        · exact ⟨fun h0 => h1 (Or.inl h0), fun h0 => h1 (Or.inr h0), h2⟩
        · exact h t ht'

theorem resolvedPath_segments (root : List String) (st : Stack) (declared : String) :
    ∀ s ∈ resolvedPath root st declared, s ≠ "" ∧ s ≠ "." ∧ s ≠ ".." := by
  unfold resolvedPath
  split <;> exact normalize_segments _ [] (by simp)

theorem resolveWatch_ok {proj : Project} {st : Stack} {declared : String} {path : WatchPath}
    (h : resolveWatch proj st declared = .ok path) :
    resolvedPath proj.Root st declared = proj.Root ++ path ∧ proj.IsDir path = false := by
  unfold resolveWatch at h
  by_cases hp : proj.Root.isPrefixOf (resolvedPath proj.Root st declared) = true
  · simp only [hp, if_true] at h
    by_cases hd : proj.IsDir ((resolvedPath proj.Root st declared).drop proj.Root.length) = true
    · simp [hd] at h
    · have hd' : proj.IsDir ((resolvedPath proj.Root st declared).drop proj.Root.length)
          = false := by simpa using hd
      simp only [hd', Bool.false_eq_true, if_false, Except.ok.injEq] at h
      obtain ⟨t, ht⟩ := List.isPrefixOf_iff_prefix.mp hp
      have hdrop : (resolvedPath proj.Root st declared).drop proj.Root.length = t := by
        rw [← ht]
        simp
      rw [hdrop] at h hd'
      rw [← h]
      exact ⟨ht.symm, hd'⟩
  · simp [hp] at h

theorem resolveWatch_outside {proj : Project} {st : Stack} {declared : String}
    (h : proj.Root.isPrefixOf (resolvedPath proj.Root st declared) = false) :
    resolveWatch proj st declared = .error (.outsideRoot declared) := by
  simp [resolveWatch, h]

theorem resolveAll_ok_mem {proj : Project} {st : Stack} : ∀ (strs : List String)
    (paths : List WatchPath), resolveAll proj st strs = .ok paths →
    ∀ path ∈ paths, ∃ declared ∈ strs, resolveWatch proj st declared = .ok path
  | [], paths, h, path, hp => by
    simp only [resolveAll, Except.ok.injEq] at h
    rw [← h] at hp
    simp at hp
  | d :: rest, paths, h, path, hp => by
    simp only [resolveAll] at h
    cases h1 : resolveWatch proj st d with
    | error f => simp [h1] at h
    | ok p1 =>
      cases h2 : resolveAll proj st rest with
      | error f => simp [h1, h2] at h
      | ok ps =>
        simp only [h1, h2, Except.ok.injEq] at h
        rw [← h] at hp
        rcases List.mem_cons.mp hp with rfl | hp'
        · exact ⟨d, List.mem_cons_self _ _, h1⟩
        · obtain ⟨d', hd', hr⟩ := resolveAll_ok_mem rest ps h2 path hp'
          exact ⟨d', List.mem_cons_of_mem _ hd', hr⟩

theorem resolveAll_error {proj : Project} {st : Stack} : ∀ (strs : List String)
    (declared : String) (f : WatchFailure), declared ∈ strs →
    resolveWatch proj st declared = .error f → ∃ f', resolveAll proj st strs = .error f'
  | [], _, _, hm, _ => by simp at hm
  | d :: rest, declared, f, hm, hf => by
    simp only [resolveAll]
    cases h1 : resolveWatch proj st d with
    | error f1 => exact ⟨f1, rfl⟩
    | ok p1 =>
      rcases List.mem_cons.mp hm with rfl | hm'
      · rw [h1] at hf
        cases hf
      · obtain ⟨f', hf'⟩ := resolveAll_error rest declared f hm' hf
        exact ⟨f', by simp [hf']⟩

theorem watchStrings_mem : ∀ (elems : List Value) (strs : List String),
    watchStrings elems = some strs → ∀ d, d ∈ strs ↔ Value.str d ∈ elems
  | [], strs, h, d => by
    simp only [watchStrings, Option.some.injEq] at h
    rw [← h]
    simp
  | .str s :: rest, strs, h, d => by
    simp only [watchStrings] at h
    cases h1 : watchStrings rest with
    | none => simp [h1] at h
    | some strs' =>
      simp only [h1, Option.some.injEq] at h
      rw [← h]
      simp [watchStrings_mem rest strs' h1 d]
  | .number _ :: _, _, h, _ => by simp [watchStrings] at h
  | .bool _ :: _, _, h, _ => by simp [watchStrings] at h
  | .list _ :: _, _, h, _ => by simp [watchStrings] at h
  | .map _ :: _, _, h, _ => by simp [watchStrings] at h
  | .null :: _, _, h, _ => by simp [watchStrings] at h

/-- A watch declaration with a string that resolves outside the project root
makes the resolver fail. -/
theorem ResolveWatches_outside {proj : Project} {st : Stack} {expr : Expr}
    {elems : List Value} {declared : String} (hw : st.Watch = some expr)
    (hev : proj.Eval st expr = .ok (.list elems)) (hm : Value.str declared ∈ elems)
    (hout : proj.Root.isPrefixOf (resolvedPath proj.Root st declared) = false) :
    ∃ f, ResolveWatches proj st = .error f := by
  simp only [ResolveWatches, hw, hev]
  cases hs : watchStrings elems with
  | none => exact ⟨_, rfl⟩
  | some strs =>
    exact resolveAll_error strs declared _ ((watchStrings_mem elems strs hs declared).mpr hm)
      (resolveWatch_outside hout)

/-- Every path the resolver returns comes from a declared string and is the
part below the project root of the normalised path of that string. -/
theorem ResolveWatches_ok {proj : Project} {st : Stack} {paths : List WatchPath}
    (h : ResolveWatches proj st = .ok paths) :
    ∀ path ∈ paths, ∃ expr elems declared, st.Watch = some expr ∧
      proj.Eval st expr = .ok (.list elems) ∧ Value.str declared ∈ elems ∧
      resolvedPath proj.Root st declared = proj.Root ++ path ∧ proj.IsDir path = false := by
  intro path hp
  unfold ResolveWatches at h
  cases hw : st.Watch with
  | none =>
    simp only [hw, Except.ok.injEq] at h
    rw [← h] at hp
    simp at hp
  | some expr =>
    simp only [hw] at h
    cases hev : proj.Eval st expr with
    | error err => simp [hev] at h
    | ok val =>
      cases val with
      | list elems =>
        simp only [hev] at h
        cases hs : watchStrings elems with
        | none => simp [hs] at h
        | some strs =>
          simp only [hs] at h
          obtain ⟨declared, hd, hr⟩ := resolveAll_ok_mem strs paths h path hp
          obtain ⟨h1, h2⟩ := resolveWatch_ok hr
          exact ⟨expr, elems, declared, rfl, hev,
            (watchStrings_mem elems strs hs declared).mp hd, h1, h2⟩
      | str _ => simp [hev] at h
      | number _ => simp [hev] at h
      | bool _ => simp [hev] at h
      | map _ => simp [hev] at h
      | null => simp [hev] at h

theorem stackChanged_error_kind {proj : Project} {changed : List String} {st : Stack}
    {kind : String} (h : stackChanged proj changed st = .error kind) :
    kind = ErrStackInvalidWatch := by
  unfold stackChanged at h
  split at h
  · cases h
    rfl
  · split at h <;> cases h

theorem changedStacks_error_kind {proj : Project} {changed : List String} :
    ∀ (l : List Stack) (kind : String), changedStacks proj changed l = .error kind →
      kind = ErrStackInvalidWatch
  | [], kind, h => by simp [changedStacks] at h
  | st :: rest, kind, h => by
    simp only [changedStacks] at h
    cases h1 : stackChanged proj changed st with
    | error k =>
      simp only [h1, Except.error.injEq] at h
      rw [← h]
      exact stackChanged_error_kind h1
    | ok c =>
      cases h2 : changedStacks proj changed rest with
      | error k =>
        simp only [h1, h2, Except.error.injEq] at h
        rw [← h]
        exact changedStacks_error_kind rest k h2
      | ok l => simp [h1, h2] at h

theorem changedStacks_error_of_mem {proj : Project} {changed : List String} :
    ∀ (l : List Stack) (st : Stack) (kind : String), st ∈ l →
      stackChanged proj changed st = .error kind →
      changedStacks proj changed l = .error ErrStackInvalidWatch
  | [], _, _, hm, _ => by simp at hm
  | s :: rest, st, kind, hm, hk => by
    cases h1 : stackChanged proj changed s with
    | error k =>
      have := stackChanged_error_kind h1
      simp [changedStacks, h1, this]
    | ok c =>
      rcases List.mem_cons.mp hm with rfl | hm'
      · rw [h1] at hk
        cases hk
      · have := changedStacks_error_of_mem rest st kind hm' hk
        simp [changedStacks, h1, this]

/-- C7: a path returned by the watch-list resolver is always lexically inside
the project root: it is the part below the root of the normalised path of a
declared string, without `.` and `..` segments; and a declared string that
resolves outside the project root makes the resolver fail, and makes the
listing of changed stacks fail with `ErrStackInvalidWatch`, status 1 and the
kind on standard error, for every set of changed files. -/
theorem watch_containment (proj : Project) :
    (∀ (st : Stack) (paths : List WatchPath), ResolveWatches proj st = .ok paths →
      ∀ path ∈ paths,
        (∀ seg ∈ path, seg ≠ "" ∧ seg ≠ "." ∧ seg ≠ "..") ∧
        ∃ expr elems declared, st.Watch = some expr ∧
          proj.Eval st expr = .ok (.list elems) ∧ Value.str declared ∈ elems ∧
          resolvedPath proj.Root st declared = proj.Root ++ path) ∧
    (∀ (st : Stack) (expr : Expr) (elems : List Value) (declared : String),
      st ∈ proj.Stacks → st.Watch = some expr → proj.Eval st expr = .ok (.list elems) →
      Value.str declared ∈ elems →
      proj.Root.isPrefixOf (resolvedPath proj.Root st declared) = false →
      (∃ f, ResolveWatches proj st = .error f) ∧
      ∀ changed : List String,
        ListChangedStacks proj changed = .error ErrStackInvalidWatch ∧
        (listChangedStacksCmd proj changed).Status = 1 ∧
        (listChangedStacksCmd proj changed).Stdout = "" ∧
        (listChangedStacksCmd proj changed).Stderr
          = "Error: " ++ ErrStackInvalidWatch ++ "\n") := by
  constructor
  · intro st paths hok path hp
    obtain ⟨expr, elems, declared, hw, hev, hm, hr, _⟩ := ResolveWatches_ok hok path hp
    refine ⟨?_, expr, elems, declared, hw, hev, hm, hr⟩
    intro seg hseg
    apply resolvedPath_segments proj.Root st declared
    rw [hr]
    exact List.mem_append_right _ hseg
  · intro st expr elems declared hst hw hev hm hout
    obtain ⟨f, hf⟩ := ResolveWatches_outside hw hev hm hout
    refine ⟨⟨f, hf⟩, ?_⟩
    intro changed
    have hsc : stackChanged proj changed st = .error ErrStackInvalidWatch := by
      simp [stackChanged, hf]
    have hcs := changedStacks_error_of_mem proj.Stacks st _ hst hsc
    have hl : ListChangedStacks proj changed = .error ErrStackInvalidWatch := by
      simp [ListChangedStacks, hcs]
    exact ⟨hl, by simp [listChangedStacksCmd, hl], by simp [listChangedStacksCmd, hl],
      by simp [listChangedStacksCmd, hl]⟩

/-- Witness of C7: the project of the end-to-end test
`TestListWatchFileOutsideProject`, where the stack `/stack` watches
`../../this-stack-must-never-be-visible/terramate.tm.hcl`: the listing fails
when only a file outside the stack changed, and for every other set of changed
files. -/
theorem watch_containment_witness :
    listChangedStacksCmd outsideProject ["/external/file.txt"]
      = { Status := 1, Stdout := "", Stderr := "Error: stack invalid watch\n" } ∧
    listChangedStacksCmd outsideProject ["/stack/main.tf"]
      = { Status := 1, Stdout := "", Stderr := "Error: stack invalid watch\n" } ∧
    ((∃ f, ResolveWatches outsideProject { Dir := "/stack", Watch := some "watch" } = .error f) ∧
      ∀ changed : List String,
        ListChangedStacks outsideProject changed = .error ErrStackInvalidWatch ∧
        (listChangedStacksCmd outsideProject changed).Status = 1 ∧
        (listChangedStacksCmd outsideProject changed).Stdout = "" ∧
        (listChangedStacksCmd outsideProject changed).Stderr
          = "Error: " ++ ErrStackInvalidWatch ++ "\n") :=
  ⟨by decide, by decide,
   (watch_containment outsideProject).2
     { Dir := "/stack", Watch := some "watch" } "watch"
     [.str "../../this-stack-must-never-be-visible/terramate.tm.hcl"]
     "../../this-stack-must-never-be-visible/terramate.tm.hcl"
     (by decide) rfl rfl (List.mem_singleton.mpr rfl) (by decide)⟩

/-- The modelled detector on the end-to-end test
`TestListWatchRelativeChangedFile`: a valid watch declaration resolves, the
stack is listed when the watched file changed, and is not listed when an
unrelated file changed. -/
theorem listChanged_relative_watch :
    ResolveWatches relativeProject { Dir := "/stack", Watch := some "watch" }
      = .ok [["external", "file.txt"]] ∧
    listChangedStacksCmd relativeProject ["/external/file.txt"]
      = { Status := 0, Stdout := "/stack\n", Stderr := "" } ∧
    listChangedStacksCmd relativeProject ["/external/other.txt"]
      = { Status := 0, Stdout := "", Stderr := "" } :=
  ⟨by rfl, by decide, by decide⟩

end Terramate
